import Mathlib

set_option maxRecDepth 8000

/- Verification of the LinuxVpsManager server (src/app.py).

The Flask routes of app.py are embedded shallowly: every route becomes a pure
function from its inputs (request parameters, the connection state of the
global SSH/SFTP clients, and the remote data the route would observe through
the paramiko client) to the JSON response it produces together with the list
of remote and local side effects it performs, in order.  Strings that the
code manipulates character by character (paths, names) are modelled as lists
of characters; bytes and decoded text are modelled as lists of naturals. -/

namespace VpsManager

/-- Paths and names, modelled as lists of characters (Python strings). -/
abbrev Str := List Char

/-- app.py, sanitize_path: return path.replace("\\", "/").  Replacing a
one-character pattern by a one-character replacement is a pointwise map. -/
def sanitize_path (p : Str) : Str :=
  p.map (fun c => if c = '\\' then '/' else c)

/-- app.py, format_size: return sz if sz >= 0 else 0. -/
def format_size (sz : Int) : Int :=
  if sz ≥ 0 then sz else 0

/-- posixpath.join for two components, as os.path.join is used by app.py on
forward-slash remote paths: an absolute second component replaces the first;
otherwise the components are glued, inserting "/" unless the first component
is empty or already ends with "/". -/
def os_path_join (a b : Str) : Str :=
  if b.head? = some '/' then b
  else if a = [] ∨ a.getLast? = some '/' then a ++ b
  else a ++ '/' :: b

/-- posixpath.dirname: everything up to and including the final "/", with
trailing slashes stripped unless the head is empty or all slashes. -/
def os_path_dirname (p : Str) : Str :=
  let head := (p.reverse.dropWhile (fun c => c ≠ '/')).reverse
  if head ≠ [] ∧ ¬ head.all (fun c => c = '/') then
    (head.reverse.dropWhile (fun c => c = '/')).reverse
  else head

/-- Python str.capitalize: first character upper-cased, the rest lower-cased. -/
def pyCapitalize (s : String) : String :=
  match s.data with
  | [] => ""
  | c :: rest => ⟨c.toUpper :: rest.map Char.toLower⟩

/-- Python str.lower, restricted to the simple per-character case mapping. -/
def lowerStr (s : Str) : Str := s.map Char.toLower

/-- Lexicographic comparison of two strings by code point, modelling the
comparison Python list.sort performs on the lower-cased key strings. -/
def lexLe : Str → Str → Bool
  | [], _ => true
  | _ :: _, [] => false
  | a :: as, b :: bs => if a < b then true else if b < a then false else lexLe as bs

theorem lexLe_total (a b : Str) : lexLe a b = true ∨ lexLe b a = true := by
  induction a generalizing b with
  | nil => left; rfl
  | cons x xs ih =>
    cases b with
    | nil => right; rfl
    | cons y ys =>
      by_cases h1 : x < y
      · left; simp [lexLe, h1]
      · by_cases h2 : y < x
        · right; simp [lexLe, h2]
        · simpa [lexLe, h1, h2] using ih ys

theorem lexLe_trans {a b c : Str} (h1 : lexLe a b = true) (h2 : lexLe b c = true) :
    lexLe a c = true := by
  induction a generalizing b c with
  | nil => rfl
  | cons x xs ih =>
    cases b with
    | nil => simp [lexLe] at h1
    | cons y ys =>
      cases c with
      | nil => simp [lexLe] at h2
      | cons z zs =>
        by_cases hxy : x < y
        · by_cases hyz : y < z
          · simp [lexLe, lt_trans hxy hyz]
          · by_cases hzy : z < y
            · simp [lexLe, hyz, hzy] at h2
            · have hyzeq : y = z := le_antisymm (not_lt.mp hzy) (not_lt.mp hyz)
              subst hyzeq
              simp [lexLe, hxy]
        · by_cases hyx : y < x
          · simp [lexLe, hxy, hyx] at h1
          · have hxyeq : x = y := le_antisymm (not_lt.mp hyx) (not_lt.mp hxy)
            subst hxyeq
            by_cases hyz : x < z
            · simp [lexLe, hyz]
            · by_cases hzy : z < x
              · simp [lexLe, hyz, hzy] at h2
              · have : x = z := le_antisymm (not_lt.mp hzy) (not_lt.mp hyz)
                subst this
                simp [lexLe, hxy] at h1 h2 ⊢
                exact ih h1 h2

/-- Insertion into a sorted list; together with insSort this models Python
list.sort with a key function (the claims do not depend on stability). -/
def insertSorted (le : α → α → Bool) (x : α) : List α → List α
  | [] => [x]
  | y :: ys => if le x y then x :: y :: ys else y :: insertSorted le x ys

def insSort (le : α → α → Bool) : List α → List α
  | [] => []
  | x :: xs => insertSorted le x (insSort le xs)

theorem perm_insertSorted (le : α → α → Bool) (x : α) (l : List α) :
    (insertSorted le x l).Perm (x :: l) := by
  induction l with
  | nil => simp [insertSorted]
  | cons y ys ih =>
    by_cases h : le x y
    · simp [insertSorted, h]
    · simp only [insertSorted, h, if_false, Bool.false_eq_true]
      exact (ih.cons y).trans (List.Perm.swap x y ys)

theorem perm_insSort (le : α → α → Bool) (l : List α) : (insSort le l).Perm l := by
  induction l with
  | nil => simp [insSort]
  | cons x xs ih =>
    simp only [insSort]
    exact (perm_insertSorted le x (insSort le xs)).trans (ih.cons x)

theorem mem_insertSorted {le : α → α → Bool} {x y : α} {l : List α}
    (h : y ∈ insertSorted le x l) : y = x ∨ y ∈ l := by
  have := (perm_insertSorted le x l).mem_iff.mp h
  simpa using this

theorem pairwise_insertSorted (le : α → α → Bool)
    (htot : ∀ a b, le a b = true ∨ le b a = true)
    (htrans : ∀ a b c, le a b = true → le b c = true → le a c = true)
    (x : α) (l : List α) (hl : l.Pairwise (fun a b => le a b = true)) :
    (insertSorted le x l).Pairwise (fun a b => le a b = true) := by
  induction l with
  | nil => simp [insertSorted]
  | cons y ys ih =>
    cases hl with
    | cons hy hys =>
      by_cases h : le x y
      · simp only [insertSorted, h, if_true]
        refine List.Pairwise.cons ?_ (List.Pairwise.cons hy hys)
        intro z hz
        rcases List.mem_cons.mp hz with rfl | hz
        · exact h
        · exact htrans x y z h (hy z hz)
      · simp only [insertSorted, h, if_false, Bool.false_eq_true]
        refine List.Pairwise.cons ?_ (ih hys)
        intro z hz
        rcases mem_insertSorted hz with rfl | hz
        · rcases htot z y with h1 | h1
          · exact absurd h1 h
          · exact h1
        · exact hy z hz

theorem pairwise_insSort (le : α → α → Bool)
    (htot : ∀ a b, le a b = true ∨ le b a = true)
    (htrans : ∀ a b c, le a b = true → le b c = true → le a c = true)
    (l : List α) : (insSort le l).Pairwise (fun a b => le a b = true) := by
  induction l with
  | nil => simp [insSort]
  | cons x xs ih =>
    simp only [insSort]
    exact pairwise_insertSorted le htot htrans x _ ih

/-- UTF-8 encoding of one code point (Python str.encode("utf-8"), per
character); code points are naturals below 0x110000. -/
def encodeChar (n : Nat) : List Nat :=
  if n < 0x80 then [n]
  else if n < 0x800 then [0xC0 + n / 64, 0x80 + n % 64]
  else if n < 0x10000 then [0xE0 + n / 4096, 0x80 + n / 64 % 64, 0x80 + n % 64]
  else [0xF0 + n / 262144, 0x80 + n / 4096 % 64, 0x80 + n / 64 % 64, 0x80 + n % 64]

/-- Python str.encode("utf-8") over a whole text (list of code points). -/
def utf8Encode (l : List Nat) : List Nat := l.flatMap encodeChar

/-- Is the byte a UTF-8 continuation byte. -/
def isCont (b : Nat) : Bool := decide (0x80 ≤ b ∧ b < 0xC0)

/-- One step of UTF-8 decoding with replacement: given the first byte and the
remaining bytes, produce the decoded code point (U+FFFD on a malformed
sequence, as bytes.decode("utf-8", errors="replace") does) and the bytes left
over.  Continuation-byte ranges are checked; overlong and surrogate
encodings, which the encoder never produces, are not rejected. -/
def decodeStep (b : Nat) (rest : List Nat) : Nat × List Nat :=
  if b < 0x80 then (b, rest)
  else if 0xC0 ≤ b ∧ b < 0xE0 then
    match rest with
    | b2 :: rest2 =>
      if isCont b2 then ((b - 0xC0) * 64 + (b2 - 0x80), rest2)
      else (0xFFFD, rest)
    | [] => (0xFFFD, [])
  else if 0xE0 ≤ b ∧ b < 0xF0 then
    match rest with
    | b2 :: b3 :: rest3 =>
      if isCont b2 && isCont b3 then
        ((b - 0xE0) * 4096 + (b2 - 0x80) * 64 + (b3 - 0x80), rest3)
      else (0xFFFD, rest)
    | _ => (0xFFFD, [])
  else if 0xF0 ≤ b ∧ b < 0xF8 then
    match rest with
    | b2 :: b3 :: b4 :: rest4 =>
      if isCont b2 && isCont b3 && isCont b4 then
        ((b - 0xF0) * 262144 + (b2 - 0x80) * 4096 + (b3 - 0x80) * 64 + (b4 - 0x80), rest4)
      else (0xFFFD, rest)
    | _ => (0xFFFD, [])
  else (0xFFFD, rest)

theorem decodeStep_len (b : Nat) (rest : List Nat) :
    (decodeStep b rest).2.length ≤ rest.length := by
  rw [decodeStep.eq_def]
  repeat' split
  all_goals try simp
  all_goals omega

/-- bytes.decode("utf-8", errors="replace") over a whole byte list. -/
def utf8DecodeReplace : List Nat → List Nat
  | [] => []
  | b :: rest => (decodeStep b rest).1 :: utf8DecodeReplace (decodeStep b rest).2
termination_by l => l.length
decreasing_by
  simp_wf
  have := decodeStep_len b rest
  omega

/-- Does the byte list consist solely of well-formed sequences. -/
def utf8Valid : List Nat → Bool
  | [] => true
  | b :: rest =>
    (if b < 0x80 then true
     else if 0xC0 ≤ b ∧ b < 0xE0 then
       match rest with
       | b2 :: _ => isCont b2
       | [] => false
     else if 0xE0 ≤ b ∧ b < 0xF0 then
       match rest with
       | b2 :: b3 :: _ => isCont b2 && isCont b3
       | _ => false
     else if 0xF0 ≤ b ∧ b < 0xF8 then
       match rest with
       | b2 :: b3 :: b4 :: _ => isCont b2 && isCont b3 && isCont b4
       | _ => false
     else false)
    && utf8Valid (decodeStep b rest).2
termination_by l => l.length
decreasing_by
  simp_wf
  have := decodeStep_len b rest
  omega

/-- bytes.decode("utf-8") in strict mode: some decoded text on well-formed
input, none on any malformed byte (the UnicodeDecodeError path). -/
def utf8DecodeStrict (l : List Nat) : Option (List Nat) :=
  if utf8Valid l then some (utf8DecodeReplace l) else none

theorem isCont_true {b : Nat} (h1 : 0x80 ≤ b) (h2 : b < 0xC0) : isCont b = true := by
  simp [isCont]; omega

theorem decodeStep_encodeChar (n : Nat) (h : n < 0x110000) (t : List Nat) :
    decodeStep (encodeChar n).headI ((encodeChar n).tail ++ t) = (n, t) := by
  by_cases h1 : n < 0x80
  · have he : encodeChar n = [n] := by rw [encodeChar, if_pos h1]
    rw [he]
    show decodeStep n t = (n, t)
    rw [decodeStep.eq_def, if_pos h1]
  · by_cases h2 : n < 0x800
    · have he : encodeChar n = [0xC0 + n / 64, 0x80 + n % 64] := by
        rw [encodeChar, if_neg h1, if_pos h2]
      rw [he]
      have hc : isCont (0x80 + n % 64) = true := isCont_true (by omega) (by omega)
      show decodeStep (0xC0 + n / 64) ((0x80 + n % 64) :: t) = (n, t)
      rw [decodeStep.eq_def]
      rw [if_neg (by omega), if_pos (by omega)]
      simp only [hc, if_true]
      congr 1
      omega
    · by_cases h3 : n < 0x10000
      · have he : encodeChar n = [0xE0 + n / 4096, 0x80 + n / 64 % 64, 0x80 + n % 64] := by
          rw [encodeChar, if_neg h1, if_neg h2, if_pos h3]
        rw [he]
        have hc1 : isCont (0x80 + n / 64 % 64) = true := isCont_true (by omega) (by omega)
        have hc2 : isCont (0x80 + n % 64) = true := isCont_true (by omega) (by omega)
        show decodeStep (0xE0 + n / 4096) ((0x80 + n / 64 % 64) :: (0x80 + n % 64) :: t)
            = (n, t)
        rw [decodeStep.eq_def]
        rw [if_neg (by omega), if_neg (by omega), if_pos (by omega)]
        simp only [hc1, hc2, Bool.and_self, if_true]
        congr 1
        omega
      · have he : encodeChar n
            = [0xF0 + n / 262144, 0x80 + n / 4096 % 64, 0x80 + n / 64 % 64, 0x80 + n % 64] := by
          rw [encodeChar, if_neg h1, if_neg h2, if_neg h3]
        rw [he]
        have hc1 : isCont (0x80 + n / 4096 % 64) = true := isCont_true (by omega) (by omega)
        have hc2 : isCont (0x80 + n / 64 % 64) = true := isCont_true (by omega) (by omega)
        have hc3 : isCont (0x80 + n % 64) = true := isCont_true (by omega) (by omega)
        show decodeStep (0xF0 + n / 262144)
            ((0x80 + n / 4096 % 64) :: (0x80 + n / 64 % 64) :: (0x80 + n % 64) :: t)
            = (n, t)
        rw [decodeStep.eq_def]
        rw [if_neg (by omega), if_neg (by omega), if_neg (by omega), if_pos (by omega)]
        simp only [hc1, hc2, hc3, Bool.and_self, if_true]
        congr 1
        omega

theorem encodeChar_ne_nil (n : Nat) : encodeChar n ≠ [] := by
  rw [encodeChar]
  split
  · simp
  · split
    · simp
    · split <;> simp

theorem decodeReplace_encodeChar (n : Nat) (h : n < 0x110000) (t : List Nat) :
    utf8DecodeReplace (encodeChar n ++ t) = n :: utf8DecodeReplace t := by
  obtain ⟨b, bs, hbs⟩ : ∃ b bs, encodeChar n = b :: bs := by
    cases he : encodeChar n with
    | nil => exact absurd he (encodeChar_ne_nil n)
    | cons b bs => exact ⟨b, bs, rfl⟩
  have hstep := decodeStep_encodeChar n h t
  rw [hbs] at hstep ⊢
  simp only [List.headI, List.tail_cons] at hstep
  rw [List.cons_append, utf8DecodeReplace, hstep]

/-- Round trip: decoding with replacement recovers exactly the encoded text. -/
theorem utf8_round_trip (l : List Nat) (h : ∀ n ∈ l, n < 0x110000) :
    utf8DecodeReplace (utf8Encode l) = l := by
  induction l with
  | nil => simp [utf8Encode, utf8DecodeReplace]
  | cons n rest ih =>
    have hn : n < 0x110000 := h n (List.mem_cons_self n rest)
    have hrest : ∀ m ∈ rest, m < 0x110000 := fun m hm => h m (List.mem_cons_of_mem n hm)
    simp only [utf8Encode, List.flatMap_cons]
    rw [decodeReplace_encodeChar n hn]
    rw [show rest.flatMap encodeChar = utf8Encode rest from rfl, ih hrest]

/-- Modelled from the spec: AnsiToMarkupConverter (spec section 4.6).  The
implementation the code uses (the Ansi2HTMLConverter class of the ansi2html
package, constructed with inline=True and fed with convert(chunk, full=False))
is not part of src/, so the converter is modelled from the specification: a
converter that is stateful across chunks, remembering an in-progress escape
sequence split across chunk boundaries and the currently active style
attributes, maps color escape sequences to styled output, and strips
unrecognized escape sequences as no-ops.  Styles carry the foreground color
index and boldness set by SGR parameters. -/
structure Style where
  fg : Option Nat := none
  bold : Bool := false
deriving DecidableEq

/-- One fragment of converted markup: a character rendered with the style
active at its position. -/
inductive Tok where
  | chr (style : Style) (c : Nat)
deriving DecidableEq

/-- Converter mode: plain text, just after an escape byte, or inside a
control-sequence introducer accumulating parameter bytes. -/
inductive AnsiMode where
  | text
  | esc
  | csi (acc : List Nat)
deriving DecidableEq

/-- Modelled from the spec: the cross-chunk converter state (in-progress
escape sequence and active style attributes). -/
structure AnsiState where
  mode : AnsiMode
  style : Style
deriving DecidableEq

def ansiInit : AnsiState := ⟨.text, {}⟩

/-- Parse the accumulated parameter bytes of a control sequence into the
semicolon-separated numeric parameters (an empty parameter reads as 0). -/
def paramsAux : List Nat → Nat → List Nat
  | [], cur => [cur]
  | c :: rest, cur => if c = 59 then cur :: paramsAux rest 0 else paramsAux rest (cur * 10 + (c - 48))

def parseParams (acc : List Nat) : List Nat := paramsAux acc 0

/-- Apply SGR parameters to the active style: 0 resets, 1 sets bold,
30 to 37 select the foreground color; anything else is ignored. -/
def applySgr (st : Style) (ps : List Nat) : Style :=
  ps.foldl (fun s p =>
    if p = 0 then {}
    else if p = 1 then { s with bold := true }
    else if 30 ≤ p ∧ p ≤ 37 then { s with fg := some (p - 30) }
    else s) st

/-- Consume one code point: printable text is emitted with the active style;
escape sequences update the state and emit nothing, with unrecognized or
malformed sequences stripped. -/
def ansiStep (s : AnsiState) (c : Nat) : AnsiState × List Tok :=
  match s.mode with
  | .text => if c = 27 then ({ s with mode := .esc }, []) else (s, [.chr s.style c])
  | .esc => if c = 91 then ({ s with mode := .csi [] }, []) else ({ s with mode := .text }, [])
  | .csi acc =>
    if (48 ≤ c ∧ c ≤ 57) ∨ c = 59 then ({ s with mode := .csi (acc ++ [c]) }, [])
    else if (65 ≤ c ∧ c ≤ 90) ∨ (97 ≤ c ∧ c ≤ 122) then
      if c = 109 then ({ mode := .text, style := applySgr s.style (parseParams acc) }, [])
      else ({ s with mode := .text }, [])
    else ({ s with mode := .text }, [])

/-- Feed one chunk of text through the converter, returning the new state and
the emitted markup fragments. -/
def ansiFeed (s : AnsiState) : List Nat → AnsiState × List Tok
  | [] => (s, [])
  | c :: rest =>
    ((ansiFeed (ansiStep s c).1 rest).1, (ansiStep s c).2 ++ (ansiFeed (ansiStep s c).1 rest).2)

/-- Incremental conversion of a chunk sequence, threading the converter state
from chunk to chunk, as the streaming endpoint reuses one converter instance
for every chunk of one stream. -/
def convertChunks (s : AnsiState) : List (List Nat) → List (List Tok)
  | [] => []
  | ch :: rest => (ansiFeed s ch).2 :: convertChunks (ansiFeed s ch).1 rest

/-- Full-buffer conversion: feed the whole text from the initial state. -/
def ansiConvertFull (text : List Nat) : List Tok := (ansiFeed ansiInit text).2

theorem ansiFeed_append (s : AnsiState) (a b : List Nat) :
    ansiFeed s (a ++ b)
      = ((ansiFeed (ansiFeed s a).1 b).1, (ansiFeed s a).2 ++ (ansiFeed (ansiFeed s a).1 b).2) := by
  induction a generalizing s with
  | nil => simp [ansiFeed]
  | cons c cs ih =>
    simp only [List.cons_append, ansiFeed, List.append_eq, ih, List.append_assoc]

theorem convertChunks_flatten (s : AnsiState) (chunks : List (List Nat)) :
    (convertChunks s chunks).flatten = (ansiFeed s chunks.flatten).2 := by
  induction chunks generalizing s with
  | nil => simp [convertChunks, ansiFeed]
  | cons ch rest ih =>
    simp only [convertChunks, List.flatten_cons, ih, ansiFeed_append]

/-- A remote or local side effect a route performs, in program order.  The
local temporary-file effects of the upload route (tempfile creation plus
FileStorage.save, and os.remove of the temporary file) appear alongside the
remote paramiko calls; saveTemp stands for a successfully started save that
created the temporary file on disk. -/
inductive Action where
  | listdir (p : Str)
  | statP (p : Str)
  | openRead (p : Str)
  | openWrite (p : Str)
  | mkdir (p : Str)
  | removeP (p : Str)
  | rmdirP (p : Str)
  | renameP (old new : Str)
  | put (remote : Str)
  | saveTemp
  | removeTemp
  | execCommand (cmd : String)
  | openSession
deriving DecidableEq

/-- Is the action a remote write (creates, modifies or deletes remote state). -/
def Action.isWrite : Action → Bool
  | .openWrite _ => true
  | .mkdir _ => true
  | .removeP _ => true
  | .rmdirP _ => true
  | .renameP _ _ => true
  | .put _ => true
  | _ => false

def Action.isPut : Action → Bool
  | .put _ => true
  | _ => false

/-- One listing entry as built by ajax_list. -/
structure Item where
  name : Str
  path : Str
  size : Int
deriving DecidableEq

/-- One SFTPAttributes record as returned by listdir_attr: the file name,
whether stat.S_ISDIR holds of st_mode, and st_size. -/
structure Attr where
  filename : Str
  isDir : Bool
  st_size : Int
deriving DecidableEq

/-- The JSON (or streamed) response of a route.  Remote error text that the
code forwards with str(e) is carried as an opaque message; raised marks an
exception that escapes the route handler. -/
inductive Resp where
  | ok (message : String)
  | okList (dirs files : List Item)
  | okContent (content : List Nat)
  | okOutput (output : List Tok)
  | okStream (chunks : List (List Tok))
  | error (message : String)
  | raised (message : String)
deriving DecidableEq

/-- The item dict built for one listing entry: name, sanitized joined path,
clamped size (app.py lines 1049 to 1051). -/
def mkItem (path : Str) (a : Attr) : Item :=
  ⟨a.filename, sanitize_path (os_path_join path a.filename), format_size a.st_size⟩

/-- The sort key comparison of ajax_list: case-insensitive name order. -/
def itemLe (a b : Item) : Bool := lexLe (lowerStr a.name) (lowerStr b.name)

/-- The partition loop of ajax_list (app.py lines 1047 to 1052): append each
entry to the dirs or files accumulator in listing order. -/
def listLoop (path : Str) (attrs : List Attr) (acc : List Item × List Item) :
    List Item × List Item :=
  attrs.foldl
    (fun (acc : List Item × List Item) a =>
      if a.isDir then (acc.1 ++ [mkItem path a], acc.2)
      else (acc.1, acc.2 ++ [mkItem path a]))
    acc

/-- ajax_list (app.py lines 1038 to 1055).  conn is the truthiness of
global_sftp_client; the oracle argument is the outcome of
listdir_attr(path) on the remote. -/
def ajax_list (conn : Bool) (path : Str) (oracle : Except String (List Attr)) :
    Resp × List Action :=
  if !conn then (.error "SFTP client not connected!", [])
  else
    match oracle with
    | .error e => (.error e, [.listdir path])
    | .ok attrs =>
      let pair := listLoop path attrs ([], [])
      (.okList (insSort itemLe pair.1) (insSort itemLe pair.2), [.listdir path])

/-- The remote filesystem contents seen by the text file routes: an
association of paths to byte contents, most recent write first. -/
abbrev FS := List (Str × List Nat)

/-- ajax_file (app.py lines 1057 to 1069): open the remote path, read all
bytes, decode as UTF-8 with replacement. -/
def ajax_file (conn : Bool) (fs : FS) (path : Str) : Resp × List Action :=
  if !conn then (.error "SFTP client not connected!", [])
  else if path = [] then (.error "No path provided", [])
  else
    match fs.lookup path with
    | some bytes => (.okContent (utf8DecodeReplace bytes), [.openRead path])
    | none => (.error "No such file", [.openRead path])

/-- ajax_save (app.py lines 1071 to 1084): open the remote path for writing
and write the UTF-8 encoding of the content. -/
def ajax_save (conn : Bool) (fs : FS) (path : Str) (content : List Nat) :
    Resp × FS × List Action :=
  if !conn then (.error "SFTP client not connected!", fs, [])
  else if path = [] then (.error "No path provided", fs, [])
  else (.ok "File saved", (path, utf8Encode content) :: fs, [.openWrite path])

/-- The shared parent-resolution block of ajax_new_item and ajax_upload
(app.py lines 1120 to 1125 and 1144 to 1149): stat the path; replace it by
its dirname when it names a non-directory; when stat raises (the path does
not exist), the except clause is pass, leaving the path unchanged.  statRes
is none when stat raises, otherwise some of S_ISDIR(st_mode). -/
def resolveParent (statRes : Option Bool) (p : Str) : Str :=
  match statRes with
  | some isDir => if isDir then p else os_path_dirname p
  | none => p

/-- ajax_new_item (app.py lines 1111 to 1135). -/
def ajax_new_item (conn : Bool) (parent_path name : Str) (item_type : String)
    (statRes : Option Bool) (createRes : Except String Unit) : Resp × List Action :=
  if !conn then (.error "SFTP not connected!", [])
  else if parent_path = [] ∨ name = [] then (.error "Missing parameters", [])
  else
    let parent := resolveParent statRes parent_path
    let full_path := sanitize_path (os_path_join parent name)
    let act := if item_type = "folder" then Action.mkdir full_path else Action.openWrite full_path
    match createRes with
    | .ok _ => (.ok (pyCapitalize item_type ++ " created"), [.statP parent_path, act])
    | .error e => (.error e, [.statP parent_path, act])

/-- One entry of request.files: its filename, its truthiness (werkzeug
FileStorage is truthy when the filename is non-empty), and whether saving it
locally and putting it remotely would succeed. -/
structure UpFile where
  filename : Str
  truthy : Bool
  saveOk : Bool
  putOk : Bool
deriving DecidableEq

/-- The loop of ajax_upload (app.py lines 1151 to 1164) over request.files:
skip falsy entries; for the first truthy file, mktemp and f.save(temp_path)
(outside any try block, so a save failure raises out of the route and the
temporary file is not removed), then put inside try/except with a finally
that removes the temporary file; then break. -/
def uploadLoop (parent : Str) : List UpFile → Resp × List Action
  | [] => (.ok "File uploaded", [])
  | f :: rest =>
    if f.truthy then
      if !f.saveOk then (.raised "save failed", [.saveTemp])
      else
        let remote := sanitize_path (os_path_join parent f.filename)
        if f.putOk then (.ok "File uploaded", [.saveTemp, .put remote, .removeTemp])
        else (.error "put failed", [.saveTemp, .put remote, .removeTemp])
    else uploadLoop parent rest

/-- ajax_upload (app.py lines 1137 to 1165). -/
def ajax_upload (conn : Bool) (parent_path : Str) (statRes : Option Bool)
    (files : List UpFile) : Resp × List Action :=
  if !conn then (.error "SFTP not connected!", [])
  else if parent_path = [] then (.error "No parent path provided", [])
  else
    let parent := resolveParent statRes parent_path
    let r := uploadLoop parent files
    (r.1, .statP parent_path :: r.2)

/-- ajax_rename (app.py lines 1285 to 1298). -/
def ajax_rename (conn : Bool) (old_path new_name : Str)
    (renameRes : Except String Unit) : Resp × List Action :=
  if !conn then (.error "SFTP not connected!", [])
  else if old_path = [] ∨ new_name = [] then (.error "Missing parameters", [])
  else
    let new_path := sanitize_path (os_path_join (os_path_dirname old_path) new_name)
    match renameRes with
    | .ok _ => (.ok "Renamed successfully", [.renameP old_path new_path])
    | .error e => (.error e, [.renameP old_path new_path])

/-- stdout, stderr and exit status of one completed remote command, as
observed through exec_command; the route never reads the exit status. -/
structure ExecOut where
  stdout : List Nat
  stderr : List Nat
  exitStatus : Nat
deriving DecidableEq

/-- terminal_execute (app.py lines 1203 to 1219): read stdout then stderr,
decode each strictly as UTF-8 (a decode failure raises UnicodeDecodeError,
caught by the handler as an error response), concatenate, convert. -/
def terminal_execute (conn : Bool) (cmd : String) (execRes : Except String ExecOut) :
    Resp × List Action :=
  if !conn then (.error "SSH not connected!", [])
  else if cmd = "" then (.error "No command provided", [])
  else
    match execRes with
    | .error e => (.error e, [.execCommand cmd])
    | .ok r =>
      match utf8DecodeStrict r.stdout, utf8DecodeStrict r.stderr with
      | some o, some e => (.okOutput (ansiConvertFull (o ++ e)), [.execCommand cmd])
      | _, _ => (.error "UnicodeDecodeError", [.execCommand cmd])

/-- The streaming channel as generate() observes it once opened: the bytes
buffered for recv (recv_ready is their non-emptiness, recv(1024) takes up to
1024 of them) and whether exit_status_ready holds.  The model is a snapshot:
no further bytes arrive and the exit flag does not change, which covers the
behavior from the moment the remote process has finished writing. -/
structure Channel where
  buf : List Nat
  exited : Bool
deriving DecidableEq

/-- The polling loop of generate() (app.py lines 1236 to 1247), returning
the raw byte chunks read in order.  Each iteration reads at most one chunk
of at most 1024 bytes when recv_ready, then breaks if exit_status_ready,
else sleeps and repolls; fuel bounds the number of iterations observed. -/
def generateRaw : Nat → Channel → List (List Nat)
  | 0, _ => []
  | fuel + 1, c =>
    if c.buf.isEmpty then
      (if c.exited then [] else generateRaw fuel c)
    else
      c.buf.take 1024 ::
        (if c.exited then [] else generateRaw fuel { c with buf := c.buf.drop 1024 })

/-- terminal_stream (app.py lines 1222 to 1251): each raw chunk is decoded
with replacement and converted through the per-stream converter instance. -/
def terminal_stream (conn : Bool) (cmd : String) (fuel : Nat) (c : Channel) :
    Resp × List Action :=
  if !conn then (.error "SSH not connected!", [])
  else if cmd = "" then (.error "No command provided", [])
  else
    (.okStream (convertChunks ansiInit ((generateRaw fuel c).map utf8DecodeReplace)),
      [.openSession, .execCommand cmd])

/- The remote subtree at the path handed to ajax_delete, as the recursive
delete observes it through stat and listdir_attr: a file, or a directory
with a list of named children. -/
mutual
inductive Node where
  | file : Node
  | dir : Entries → Node
inductive Entries where
  | nil : Entries
  | cons (name : Str) (child : Node) (rest : Entries) : Entries
end

/-- One delete call issued to the SFTP client: remove for files, rmdir for
directories. -/
inductive DelOp where
  | removeOp (p : Str)
  | rmdirOp (p : Str)
deriving DecidableEq

def DelOp.path : DelOp → Str
  | .removeOp p => p
  | .rmdirOp p => p

def DelOp.toAction : DelOp → Action
  | .removeOp p => .removeP p
  | .rmdirOp p => .rmdirP p

/-- The path of a child in the delete recursion:
sanitize_path(os.path.join(p, i.filename)) (app.py line 1098). -/
def childPath (p n : Str) : Str := sanitize_path (os_path_join p n)

/- The delete calls ajax_delete issues for the subtree at p, in program
order (app.py lines 1093 to 1106): a plain file is removed directly; for a
directory, delete_dir removes every child first (recursing into
subdirectories) and calls rmdir on the directory last. -/
mutual
def delOpsNode : Node → Str → List DelOp
  | .file, p => [.removeOp p]
  | .dir es, p => delOpsEntries es p ++ [.rmdirOp p]
def delOpsEntries : Entries → Str → List DelOp
  | .nil, _ => []
  | .cons n t rest, p => delOpsNode t (childPath p n) ++ delOpsEntries rest p
end

/- Every path in the subtree at p, the root first. -/
mutual
def allPathsNode : Node → Str → List Str
  | .file, p => [p]
  | .dir es, p => p :: allPathsEntries es p
def allPathsEntries : Entries → Str → List Str
  | .nil, _ => []
  | .cons n t rest, p => allPathsNode t (childPath p n) ++ allPathsEntries rest p
end

def entNames : Entries → List Str
  | .nil => []
  | .cons n _ rest => n :: entNames rest

/-- A usable entry name: non-empty and free of separators, so that joined
paths have one segment per directory level. -/
def GoodName (n : Str) : Prop := n ≠ [] ∧ ∀ c ∈ n, c ≠ '/' ∧ c ≠ '\\'

/-- A base path in the form the explorer passes around: non-empty, not
ending in a slash, and already forward-slash normalized. -/
def GoodPath (p : Str) : Prop := p ≠ [] ∧ p.getLast? ≠ some '/' ∧ '\\' ∉ p

/- Well-formed remote subtree: names are usable and siblings are distinct. -/
mutual
def WFNode : Node → Prop
  | .file => True
  | .dir es => WFEntries es
def WFEntries : Entries → Prop
  | .nil => True
  | .cons n t rest => GoodName n ∧ n ∉ entNames rest ∧ WFNode t ∧ WFEntries rest
end

/-- q lies strictly below p in the path tree: q is p plus a slash plus a
non-empty remainder. -/
def StrictDesc (q p : Str) : Prop := ∃ r, r ≠ [] ∧ q = p ++ '/' :: r

/-- Computable check for StrictDesc. -/
def isUnder (q p : Str) : Bool :=
  decide (q.take (p.length + 1) = p ++ ['/']) && decide (p.length + 1 < q.length)

theorem isUnder_iff (q p : Str) : isUnder q p = true ↔ StrictDesc q p := by
  constructor
  · intro h
    simp only [isUnder, Bool.and_eq_true, decide_eq_true_eq] at h
    obtain ⟨h1, h2⟩ := h
    refine ⟨q.drop (p.length + 1), ?_, ?_⟩
    · intro hd
      have := congrArg List.length hd
      simp [List.length_drop] at this
      omega
    · conv_lhs => rw [← List.take_append_drop (p.length + 1) q]
      rw [h1]
      simp
  · rintro ⟨r, hr, rfl⟩
    simp only [isUnder, Bool.and_eq_true, decide_eq_true_eq]
    constructor
    · rw [show p ++ '/' :: r = (p ++ ['/']) ++ r by simp]
      rw [List.take_append_of_le_length (by simp)]
      simp
    · simp only [List.length_append, List.length_cons]
      cases r with
      | nil => exact absurd rfl hr
      | cons a as => simp

instance (q p : Str) : Decidable (StrictDesc q p) :=
  decidable_of_iff (isUnder q p = true) (isUnder_iff q p)

/-- Remove the first occurrence of a path from the store. -/
def eraseStr : List Str → Str → List Str
  | [], _ => []
  | x :: xs, p => if x = p then xs else x :: eraseStr xs p

/-- Executing a sequence of delete calls against the remote store, given as
the list of live paths: remove requires its target present, rmdir requires
its target present and no surviving path below it; each erases its target. -/
def runOps : List DelOp → List Str → Option (List Str)
  | [], s => some s
  | .removeOp p :: rest, s =>
    if p ∈ s then runOps rest (eraseStr s p) else none
  | .rmdirOp p :: rest, s =>
    if p ∈ s ∧ ∀ q ∈ s, ¬ StrictDesc q p then runOps rest (eraseStr s p) else none

/-- ajax_delete (app.py lines 1086 to 1109): the tree argument is the
subtree the remote holds at path (none when stat raises). -/
def ajax_delete (conn : Bool) (path : Str) (tree : Option Node) : Resp × List Action :=
  if !conn then (.error "SFTP client not connected!", [])
  else if path = [] then (.error "No path provided", [])
  else
    match tree with
    | none => (.error "stat failed", [.statP path])
    | some t => (.ok "Deleted", .statP path :: (delOpsNode t path).map DelOp.toAction)

theorem sanitize_path_eq_self {l : Str} (h : '\\' ∉ l) : sanitize_path l = l := by
  induction l with
  | nil => rfl
  | cons c cs ih =>
    have hc : ¬ c = '\\' := fun e => h (e ▸ List.mem_cons_self c cs)
    have hcs : '\\' ∉ cs := fun e => h (List.mem_cons_of_mem c e)
    simp [sanitize_path, hc] at ih ⊢
    exact ih hcs

theorem no_backslash_sanitize (l : Str) : '\\' ∉ sanitize_path l := by
  intro h
  simp only [sanitize_path, List.mem_map] at h
  obtain ⟨c, _, hc⟩ := h
  by_cases e : c = '\\' <;> simp [e] at hc

/-- For a well-formed base path and entry name, the joined child path is
literally the base path, a slash, and the name. -/
theorem childPath_eq {p n : Str} (hp : GoodPath p) (hn : GoodName n) :
    childPath p n = p ++ '/' :: n := by
  obtain ⟨hpne, hplast, hpb⟩ := hp
  obtain ⟨hnne, hnc⟩ := hn
  unfold childPath os_path_join
  have hh : ¬ n.head? = some '/' := by
    cases n with
    | nil => simp
    | cons a as =>
      simp only [List.head?_cons, Option.some.injEq]
      exact fun e => (hnc a (List.mem_cons_self a as)).1 e
  rw [if_neg hh, if_neg (not_or.mpr ⟨hpne, hplast⟩)]
  apply sanitize_path_eq_self
  intro hmem
  rcases List.mem_append.mp hmem with h | h
  · exact hpb h
  · rcases List.mem_cons.mp h with e | h
    · exact absurd e.symm (by decide)
    · exact (hnc _ h).2 rfl

theorem goodPath_childPath {p n : Str} (hp : GoodPath p) (hn : GoodName n) :
    GoodPath (childPath p n) := by
  rw [childPath_eq hp hn]
  obtain ⟨hnne, hnc⟩ := hn
  refine ⟨by simp, ?_, ?_⟩
  · cases n with
    | nil => exact absurd rfl hnne
    | cons a as =>
      rw [List.getLast?_append, List.getLast?_cons_cons]
      cases hl : (a :: as).getLast? with
      | none => simp at hl
      | some c =>
        rw [Option.or_some]
        have hcm : c ∈ a :: as := List.mem_of_mem_getLast? hl
        simp only [ne_eq, Option.some.injEq]
        exact fun e => (hnc c hcm).1 e
  · intro hmem
    rcases List.mem_append.mp hmem with h | h
    · exact hp.2.2 h
    · rcases List.mem_cons.mp h with e | h
      · exact absurd e.symm (by decide)
      · exact (hnc _ h).2 rfl

/-- q is the subtree root p itself or lies strictly below it. -/
def SubOf (q p : Str) : Prop := q = p ∨ StrictDesc q p

theorem strictDesc_length {q p : Str} (h : StrictDesc q p) : p.length < q.length := by
  obtain ⟨r, hr, rfl⟩ := h
  simp only [List.length_append, List.length_cons]
  omega

theorem not_strictDesc_self (p : Str) : ¬ StrictDesc p p :=
  fun h => absurd (strictDesc_length h) (lt_irrefl _)

theorem subOf_length {q p : Str} (h : SubOf q p) : p.length ≤ q.length := by
  rcases h with rfl | h
  · exact le_refl _
  · exact le_of_lt (strictDesc_length h)

theorem strictDesc_of_subOf_child {p n q : Str} (hn : GoodName n)
    (h : SubOf q (p ++ '/' :: n)) : StrictDesc q p := by
  rcases h with rfl | ⟨r, hr, rfl⟩
  · exact ⟨n, hn.1, rfl⟩
  · exact ⟨n ++ '/' :: r, by simp, by simp⟩

theorem strictDesc_trans {q m p : Str} (h1 : StrictDesc q m) (h2 : StrictDesc m p) :
    StrictDesc q p := by
  obtain ⟨r, hr, rfl⟩ := h1
  obtain ⟨r2, hr2, rfl⟩ := h2
  exact ⟨r2 ++ '/' :: r, by simp, by simp⟩

/-- Splitting a string into a separator-free head and a tail that is empty or
starts with the separator is unambiguous. -/
theorem seg_ext : ∀ (n1 n2 r1 r2 : Str), (∀ c ∈ n1, c ≠ '/') → (∀ c ∈ n2, c ≠ '/') →
    (r1 = [] ∨ r1.head? = some '/') → (r2 = [] ∨ r2.head? = some '/') →
    n1 ++ r1 = n2 ++ r2 → n1 = n2 ∧ r1 = r2 := by
  intro n1
  induction n1 with
  | nil =>
    intro n2 r1 r2 h1 h2 s1 s2 he
    cases n2 with
    | nil => exact ⟨rfl, he⟩
    | cons b bs =>
      exfalso
      simp only [List.nil_append, List.cons_append] at he
      rcases s1 with rfl | hs
      · simp at he
      · rw [he] at hs
        simp only [List.head?_cons, Option.some.injEq] at hs
        exact h2 b (List.mem_cons_self b bs) hs
  | cons a as ih =>
    intro n2 r1 r2 h1 h2 s1 s2 he
    cases n2 with
    | nil =>
      exfalso
      simp only [List.cons_append, List.nil_append] at he
      rcases s2 with rfl | hs
      · simp at he
      · rw [← he] at hs
        simp only [List.head?_cons, Option.some.injEq] at hs
        exact h1 a (List.mem_cons_self a as) hs
    | cons b bs =>
      simp only [List.cons_append, List.cons.injEq] at he
      obtain ⟨rfl, he2⟩ := he
      have := ih bs r1 r2 (fun c hc => h1 c (List.mem_cons_of_mem a hc))
        (fun c hc => h2 c (List.mem_cons_of_mem a hc)) s1 s2 he2
      exact ⟨by rw [this.1], this.2⟩

/-- The canonical decomposition of a path lying at or below a child. -/
theorem subOf_decomp {c q : Str} (h : SubOf q c) :
    ∃ r, (r = [] ∨ r.head? = some '/') ∧ q = c ++ r := by
  rcases h with rfl | ⟨r, hr, rfl⟩
  · exact ⟨[], Or.inl rfl, by simp⟩
  · exact ⟨'/' :: r, Or.inr rfl, by simp⟩

/-- Paths under distinct sibling names never relate as equal or as
ancestor and descendant. -/
theorem sib_disjoint {p n1 n2 q1 q2 : Str}
    (hn1 : GoodName n1) (hn2 : GoodName n2) (hne : n1 ≠ n2)
    (h1 : SubOf q1 (p ++ '/' :: n1)) (h2 : SubOf q2 (p ++ '/' :: n2)) :
    q1 ≠ q2 ∧ ¬ StrictDesc q2 q1 := by
  obtain ⟨r1, hs1, rfl⟩ := subOf_decomp h1
  obtain ⟨r2, hs2, rfl⟩ := subOf_decomp h2
  have hfree1 : ∀ c ∈ n1, c ≠ '/' := fun c hc => (hn1.2 c hc).1
  have hfree2 : ∀ c ∈ n2, c ≠ '/' := fun c hc => (hn2.2 c hc).1
  constructor
  · intro he
    have he2 : n1 ++ r1 = n2 ++ r2 := by
      have hx : p ++ '/' :: (n1 ++ r1) = p ++ '/' :: (n2 ++ r2) := by simpa using he
      have hy := List.append_cancel_left hx
      injection hy
    exact hne (seg_ext n1 n2 r1 r2 hfree1 hfree2 hs1 hs2 he2).1
  · rintro ⟨r, hr, he⟩
    have he2 : n2 ++ r2 = n1 ++ (r1 ++ '/' :: r) := by
      have hx : p ++ '/' :: (n2 ++ r2) = p ++ '/' :: (n1 ++ (r1 ++ '/' :: r)) := by
        simpa using he
      have hy := List.append_cancel_left hx
      injection hy
    have hs : r1 ++ '/' :: r = [] ∨ (r1 ++ '/' :: r).head? = some '/' := by
      rcases hs1 with rfl | hs1
      · right; simp
      · right
        cases r1 with
        | nil => simp
        | cons a as => simpa using (by simpa using hs1 : a = '/')
    have := seg_ext n2 n1 r2 (r1 ++ '/' :: r) hfree2 hfree1 hs2 hs he2
    exact hne this.1.symm

/- Every path in a well-formed subtree is the root or a strict descendant
of it; entry-level version names the child the path lies under. -/
mutual
theorem mem_allPathsNode : ∀ (t : Node) (p q : Str), WFNode t → GoodPath p →
    q ∈ allPathsNode t p → SubOf q p
  | .file, p, q, _, _, hq => by
      simp only [allPathsNode, List.mem_singleton] at hq
      exact Or.inl hq
  | .dir es, p, q, hwf, hp, hq => by
      simp only [allPathsNode, List.mem_cons] at hq
      rcases hq with rfl | hq
      · exact Or.inl rfl
      · obtain ⟨n, _, hn, hsub⟩ := mem_allPathsEntries es p q hwf hp hq
        exact Or.inr (strictDesc_of_subOf_child hn hsub)
theorem mem_allPathsEntries : ∀ (es : Entries) (p q : Str), WFEntries es → GoodPath p →
    q ∈ allPathsEntries es p → ∃ n, n ∈ entNames es ∧ GoodName n ∧ SubOf q (p ++ '/' :: n)
  | .nil, p, q, _, _, hq => by simp [allPathsEntries] at hq
  | .cons n t rest, p, q, hwf, hp, hq => by
      obtain ⟨hgn, hnm, hwt, hwr⟩ := hwf
      simp only [allPathsEntries, List.mem_append] at hq
      rcases hq with hq | hq
      · have hsub := mem_allPathsNode t (childPath p n) q hwt (goodPath_childPath hp hgn) hq
        rw [childPath_eq hp hgn] at hsub
        exact ⟨n, by simp [entNames], hgn, hsub⟩
      · obtain ⟨n2, hn2, hg2, hs2⟩ := mem_allPathsEntries rest p q hwr hp hq
        exact ⟨n2, by simp [entNames, hn2], hg2, hs2⟩
end

/- Each delete call of the recursion targets the subtree root or one of its
strict descendants. -/
mutual
theorem mem_delOpsNode : ∀ (t : Node) (p : Str) (o : DelOp), WFNode t → GoodPath p →
    o ∈ delOpsNode t p → SubOf o.path p
  | .file, p, o, _, _, ho => by
      simp only [delOpsNode, List.mem_singleton] at ho
      subst ho
      exact Or.inl rfl
  | .dir es, p, o, hwf, hp, ho => by
      simp only [delOpsNode, List.mem_append, List.mem_singleton] at ho
      rcases ho with ho | ho
      · obtain ⟨n, _, hg, hs⟩ := mem_delOpsEntries es p o hwf hp ho
        exact Or.inr (strictDesc_of_subOf_child hg hs)
      · subst ho; exact Or.inl rfl
theorem mem_delOpsEntries : ∀ (es : Entries) (p : Str) (o : DelOp), WFEntries es → GoodPath p →
    o ∈ delOpsEntries es p → ∃ n, n ∈ entNames es ∧ GoodName n ∧ SubOf o.path (p ++ '/' :: n)
  | .nil, p, o, _, _, ho => by simp [delOpsEntries] at ho
  | .cons n t rest, p, o, hwf, hp, ho => by
      obtain ⟨hgn, hnm, hwt, hwr⟩ := hwf
      simp only [delOpsEntries, List.mem_append] at ho
      rcases ho with ho | ho
      · have hs := mem_delOpsNode t (childPath p n) o hwt (goodPath_childPath hp hgn) ho
        rw [childPath_eq hp hgn] at hs
        exact ⟨n, by simp [entNames], hgn, hs⟩
      · obtain ⟨n2, hn2, hg2, hs2⟩ := mem_delOpsEntries rest p o hwr hp ho
        exact ⟨n2, by simp [entNames, hn2], hg2, hs2⟩
end

theorem eraseStr_cons_head (p : Str) (l : List Str) : eraseStr (p :: l) p = l := by
  simp [eraseStr]

theorem eraseStr_perm {s1 s2 : List Str} (h : s1.Perm s2) (p : Str) :
    (eraseStr s1 p).Perm (eraseStr s2 p) := by
  induction h with
  | nil => exact List.Perm.refl _
  | cons x h ih =>
    by_cases e : x = p
    · simpa [eraseStr, e] using h
    · simpa [eraseStr, e] using ih.cons x
  | swap x y l =>
    by_cases ey : y = p <;> by_cases ex : x = p
    · subst ey; subst ex; simp [eraseStr]
    · subst ey; simp [eraseStr, ex]
    · subst ex; simp [eraseStr, ey]
    · simp only [eraseStr, ey, ex, if_false, if_neg]
      exact List.Perm.swap x y _
  | trans h1 h2 ih1 ih2 => exact ih1.trans ih2

theorem runOps_append (a b : List DelOp) (s : List Str) :
    runOps (a ++ b) s = (runOps a s).bind (fun s2 => runOps b s2) := by
  induction a generalizing s with
  | nil => simp [runOps]
  | cons op rest ih =>
    cases op with
    | removeOp p =>
      simp only [List.cons_append, runOps]
      by_cases h : p ∈ s
      · rw [if_pos h, if_pos h]
        simp only [List.append_eq]
        exact ih (eraseStr s p)
      · rw [if_neg h, if_neg h]; rfl
    | rmdirOp p =>
      simp only [List.cons_append, runOps]
      by_cases h : p ∈ s ∧ ∀ q ∈ s, ¬ StrictDesc q p
      · rw [if_pos h, if_pos h]
        simp only [List.append_eq]
        exact ih (eraseStr s p)
      · rw [if_neg h, if_neg h]; rfl

theorem runOps_perm : ∀ (ops : List DelOp) {s1 s2 r1 : List Str},
    runOps ops s1 = some r1 → s1.Perm s2 →
    ∃ r2, runOps ops s2 = some r2 ∧ r1.Perm r2 := by
  intro ops
  induction ops with
  | nil =>
    intro s1 s2 r1 h hp
    simp only [runOps, Option.some.injEq] at h
    subst h
    exact ⟨s2, rfl, hp⟩
  | cons op rest ih =>
    intro s1 s2 r1 h hp
    cases op with
    | removeOp p =>
      simp only [runOps] at h ⊢
      by_cases h1 : p ∈ s1
      · rw [if_pos h1] at h
        rw [if_pos (hp.mem_iff.mp h1)]
        exact ih h (eraseStr_perm hp p)
      · rw [if_neg h1] at h
        exact absurd h (by simp)
    | rmdirOp p =>
      simp only [runOps] at h ⊢
      by_cases h1 : p ∈ s1 ∧ ∀ q ∈ s1, ¬ StrictDesc q p
      · rw [if_pos h1] at h
        rw [if_pos ⟨hp.mem_iff.mp h1.1, fun q hq => h1.2 q (hp.mem_iff.mpr hq)⟩]
        exact ih h (eraseStr_perm hp p)
      · rw [if_neg h1] at h
        exact absurd h (by simp)

/- Executing the delete calls of a well-formed subtree against a store made
of exactly the subtree paths plus unrelated paths succeeds (every remove
finds its file, every rmdir finds an emptied directory) and leaves exactly
the unrelated paths. -/
mutual
theorem runDelNode : ∀ (t : Node) (p : Str) (outside : List Str), WFNode t → GoodPath p →
    (∀ q ∈ outside, ¬ StrictDesc q p) →
    ∃ s, runOps (delOpsNode t p) (allPathsNode t p ++ outside) = some s ∧ s.Perm outside
  | .file, p, outside, _, _, _ => by
      refine ⟨outside, ?_, List.Perm.refl _⟩
      simp only [delOpsNode, allPathsNode, List.singleton_append, runOps]
      rw [if_pos (List.mem_cons_self p outside), eraseStr_cons_head]
  | .dir es, p, outside, hwf, hp, hout => by
      have hout2 : ∀ q ∈ p :: outside, ¬ StrictDesc q p := by
        intro q hq
        rcases List.mem_cons.mp hq with rfl | hq
        · exact not_strictDesc_self q
        · exact hout q hq
      obtain ⟨s1, hrun1, hperm1⟩ := runDelEntries es p (p :: outside) hwf hp hout2
      obtain ⟨s2, hrun2, hperm2⟩ := runOps_perm _ hrun1 List.perm_middle
      have hs2p : s2.Perm (p :: outside) := hperm2.symm.trans hperm1
      have hmem : p ∈ s2 := hs2p.mem_iff.mpr (List.mem_cons_self p outside)
      have hnd : ∀ q ∈ s2, ¬ StrictDesc q p := by
        intro q hq
        exact hout2 q (hs2p.mem_iff.mp hq)
      refine ⟨eraseStr s2 p, ?_, ?_⟩
      · simp only [delOpsNode, allPathsNode]
        rw [runOps_append]
        rw [show (p :: allPathsEntries es p) ++ outside
            = p :: (allPathsEntries es p ++ outside) by simp]
        rw [hrun2]
        show runOps [DelOp.rmdirOp p] s2 = some (eraseStr s2 p)
        simp only [runOps]
        rw [if_pos ⟨hmem, hnd⟩]
      · have := eraseStr_perm hs2p p
        rwa [eraseStr_cons_head] at this
theorem runDelEntries : ∀ (es : Entries) (p : Str) (outside : List Str), WFEntries es →
    GoodPath p → (∀ q ∈ outside, ¬ StrictDesc q p) →
    ∃ s, runOps (delOpsEntries es p) (allPathsEntries es p ++ outside) = some s ∧ s.Perm outside
  | .nil, p, outside, _, _, _ => by
      refine ⟨outside, ?_, List.Perm.refl _⟩
      simp [delOpsEntries, allPathsEntries, runOps]
  | .cons n t rest, p, outside, hwf, hp, hout => by
      obtain ⟨hgn, hnm, hwt, hwr⟩ := hwf
      have hcp : GoodPath (childPath p n) := goodPath_childPath hp hgn
      have hchild_eq := childPath_eq hp hgn
      have houtc : ∀ q ∈ allPathsEntries rest p ++ outside, ¬ StrictDesc q (childPath p n) := by
        intro q hq
        rcases List.mem_append.mp hq with hq | hq
        · obtain ⟨n2, hn2mem, hg2, hs2⟩ := mem_allPathsEntries rest p q hwr hp hq
          have hne : n ≠ n2 := fun e => hnm (by rw [e]; exact hn2mem)
          rw [hchild_eq]
          exact (sib_disjoint hgn hg2 hne (Or.inl rfl) hs2).2
        · rw [hchild_eq]
          intro hsd
          exact hout q hq (strictDesc_of_subOf_child hgn (Or.inr hsd))
      obtain ⟨s1, hrun1, hperm1⟩ :=
        runDelNode t (childPath p n) (allPathsEntries rest p ++ outside) hwt hcp houtc
      obtain ⟨s2, hrun2, hperm2⟩ := runDelEntries rest p outside hwr hp hout
      obtain ⟨s3, hrun3, hperm3⟩ := runOps_perm _ hrun2 hperm1.symm
      refine ⟨s3, ?_, hperm3.symm.trans hperm2⟩
      simp only [delOpsEntries, allPathsEntries]
      rw [runOps_append, List.append_assoc, hrun1]
      exact hrun3
end

/- The delete calls are emitted children before parents: no call for a path
strictly above a later call's path occurs earlier. -/
mutual
theorem pairwise_delOpsNode : ∀ (t : Node) (p : Str), WFNode t → GoodPath p →
    (delOpsNode t p).Pairwise (fun o1 o2 => ¬ StrictDesc o2.path o1.path)
  | .file, p, _, _ => by simp [delOpsNode]
  | .dir es, p, hwf, hp => by
      simp only [delOpsNode]
      rw [List.pairwise_append]
      refine ⟨pairwise_delOpsEntries es p hwf hp, by simp, ?_⟩
      intro o1 h1 o2 h2
      simp only [List.mem_singleton] at h2
      subst h2
      obtain ⟨n2, _, hg2, hs2⟩ := mem_delOpsEntries es p o1 hwf hp h1
      intro hsd
      have hlen1 := subOf_length hs2
      have hlen2 := strictDesc_length hsd
      simp only [DelOp.path, List.length_append, List.length_cons] at hlen1 hlen2
      omega
theorem pairwise_delOpsEntries : ∀ (es : Entries) (p : Str), WFEntries es → GoodPath p →
    (delOpsEntries es p).Pairwise (fun o1 o2 => ¬ StrictDesc o2.path o1.path)
  | .nil, p, _, _ => by simp [delOpsEntries]
  | .cons n t rest, p, hwf, hp => by
      obtain ⟨hgn, hnm, hwt, hwr⟩ := hwf
      simp only [delOpsEntries]
      rw [List.pairwise_append]
      refine ⟨pairwise_delOpsNode t _ hwt (goodPath_childPath hp hgn),
        pairwise_delOpsEntries rest p hwr hp, ?_⟩
      intro o1 h1 o2 h2
      have hs1 := mem_delOpsNode t (childPath p n) o1 hwt (goodPath_childPath hp hgn) h1
      rw [childPath_eq hp hgn] at hs1
      obtain ⟨n2, hn2, hg2, hs2⟩ := mem_delOpsEntries rest p o2 hwr hp h2
      have hne : n ≠ n2 := fun e => hnm (by rw [e]; exact hn2)
      exact (sib_disjoint hgn hg2 hne hs1 hs2).2
end

/- The targets of the delete calls are exactly the paths of the subtree. -/
mutual
theorem perm_delOpsNode : ∀ (t : Node) (p : Str),
    ((delOpsNode t p).map DelOp.path).Perm (allPathsNode t p)
  | .file, p => by simp [delOpsNode, allPathsNode, DelOp.path]
  | .dir es, p => by
      simp only [delOpsNode, allPathsNode, List.map_append, List.map_cons, List.map_nil,
        DelOp.path]
      exact ((perm_delOpsEntries es p).append (List.Perm.refl [p])).trans
        (List.perm_append_singleton p _)
theorem perm_delOpsEntries : ∀ (es : Entries) (p : Str),
    ((delOpsEntries es p).map DelOp.path).Perm (allPathsEntries es p)
  | .nil, p => by simp [delOpsEntries, allPathsEntries]
  | .cons n t rest, p => by
      simp only [delOpsEntries, allPathsEntries, List.map_append]
      exact (perm_delOpsNode t (childPath p n)).append (perm_delOpsEntries rest p)
end

theorem listLoop_eq (path : Str) : ∀ (attrs : List Attr) (acc : List Item × List Item),
    listLoop path attrs acc
      = (acc.1 ++ (attrs.filter (fun a => a.isDir)).map (mkItem path),
         acc.2 ++ (attrs.filter (fun a => !a.isDir)).map (mkItem path)) := by
  intro attrs
  induction attrs with
  | nil => intro acc; simp [listLoop]
  | cons a rest ih =>
    intro acc
    by_cases h : a.isDir = true
    · simp only [listLoop, List.foldl_cons, h, if_true] at ih ⊢
      rw [ih]
      simp [List.filter_cons, h]
    · simp only [listLoop, List.foldl_cons, h, if_false, Bool.false_eq_true] at ih ⊢
      rw [ih]
      simp [List.filter_cons, h]

theorem itemLe_total (a b : Item) : itemLe a b = true ∨ itemLe b a = true :=
  lexLe_total _ _

theorem itemLe_trans (a b c : Item) (h1 : itemLe a b = true) (h2 : itemLe b c = true) :
    itemLe a c = true :=
  lexLe_trans h1 h2

theorem format_size_nonneg (sz : Int) : 0 ≤ format_size sz := by
  unfold format_size
  split <;> omega

theorem sanitize_head (l : Str) :
    (sanitize_path l).head? = l.head?.map (fun c => if c = '\\' then '/' else c) := by
  cases l <;> simp [sanitize_path]

/-- Joining anything onto an absolute base and sanitizing yields an absolute
path. -/
theorem abs_join (path b : Str) (hp : path.head? = some '/') :
    (sanitize_path (os_path_join path b)).head? = some '/' := by
  rw [sanitize_head]
  unfold os_path_join
  by_cases hb : b.head? = some '/'
  · rw [if_pos hb, hb]
    simp
  · rw [if_neg hb]
    by_cases ha : path = [] ∨ path.getLast? = some '/'
    · rw [if_pos ha, List.head?_append, hp]
      simp
    · rw [if_neg ha, List.head?_append, hp]
      simp

theorem uploadLoop_no_truthy (parent : Str) : ∀ (files : List UpFile),
    (∀ f ∈ files, f.truthy = false) → uploadLoop parent files = (.ok "File uploaded", []) := by
  intro files
  induction files with
  | nil => intro _; rfl
  | cons f rest ih =>
    intro h
    have hf : f.truthy = false := h f (List.mem_cons_self f rest)
    simp only [uploadLoop, hf, Bool.false_eq_true, if_false]
    exact ih (fun g hg => h g (List.mem_cons_of_mem f hg))

theorem uploadLoop_puts (parent : Str) : ∀ (files : List UpFile),
    ((uploadLoop parent files).2.countP Action.isPut) ≤ 1 := by
  intro files
  induction files with
  | nil => simp [uploadLoop]
  | cons f rest ih =>
    by_cases ht : f.truthy = true
    · simp only [uploadLoop, ht, if_true]
      by_cases hs : f.saveOk = true
      · simp only [hs, Bool.not_true, Bool.false_eq_true, if_false]
        split <;> simp [List.countP_cons, Action.isPut]
      · simp [hs, List.countP_cons, Action.isPut]
    · simpa [uploadLoop, ht] using ih

theorem uploadLoop_clean (parent : Str) : ∀ (files : List UpFile),
    (∀ f ∈ files, f.truthy = true → f.saveOk = true) →
    (Action.saveTemp ∈ (uploadLoop parent files).2 →
      Action.removeTemp ∈ (uploadLoop parent files).2)
    ∧ ((uploadLoop parent files).1 = .ok "File uploaded"
        ∨ (uploadLoop parent files).1 = .error "put failed") := by
  intro files
  induction files with
  | nil =>
    intro _
    refine ⟨fun h => absurd h (by simp [uploadLoop]), Or.inl rfl⟩
  | cons f rest ih =>
    intro h
    by_cases ht : f.truthy = true
    · have hs : f.saveOk = true := h f (List.mem_cons_self f rest) ht
      by_cases hput : f.putOk = true
      · simp [uploadLoop, ht, hs, hput]
      · simp [uploadLoop, ht, hs, hput]
    · simp only [uploadLoop, ht, Bool.false_eq_true, if_false]
      exact ih (fun g hg e => h g (List.mem_cons_of_mem f hg) e)

/-- Claim C1: for every filesystem or command operation (list, read file,
write file, delete, create entry, upload, rename, bounded command execution,
streamed command execution), if the session is not connected (the SSH/SFTP
client is absent), the operation returns an explicit error outcome (status
error with a message) without performing any remote action and without
crashing the hosting process. -/
theorem spec_c1 :
    (∀ path oracle, ajax_list false path oracle = (.error "SFTP client not connected!", []))
    ∧ (∀ fs path, ajax_file false fs path = (.error "SFTP client not connected!", []))
    ∧ (∀ fs path content,
        ajax_save false fs path content = (.error "SFTP client not connected!", fs, []))
    ∧ (∀ path tree, ajax_delete false path tree = (.error "SFTP client not connected!", []))
    ∧ (∀ parent name ty statRes createRes,
        ajax_new_item false parent name ty statRes createRes = (.error "SFTP not connected!", []))
    ∧ (∀ parent statRes files,
        ajax_upload false parent statRes files = (.error "SFTP not connected!", []))
    ∧ (∀ op nn renameRes, ajax_rename false op nn renameRes = (.error "SFTP not connected!", []))
    ∧ (∀ cmd execRes, terminal_execute false cmd execRes = (.error "SSH not connected!", []))
    ∧ (∀ cmd fuel c, terminal_stream false cmd fuel c = (.error "SSH not connected!", [])) :=
  ⟨fun _ _ => rfl, fun _ _ => rfl, fun _ _ _ => rfl, fun _ _ => rfl, fun _ _ _ _ _ => rfl,
    fun _ _ _ => rfl, fun _ _ _ => rfl, fun _ _ => rfl, fun _ _ _ => rfl⟩

/-- Claim C2 (counterexample): the claim states that when the stated path
does not exist (the stat call fails), the resolution used by the create and
upload routes returns the syntactic parent of the path string; on the code
the except clause is pass, so the path comes back unchanged, and for the
existing path string /a/b the two differ. -/
theorem spec_c2_counterexample :
    ¬ (resolveParent none ['/', 'a', '/', 'b'] = os_path_dirname ['/', 'a', '/', 'b']) := by
  decide

/-- Claim C2 (amended): for a path that does not exist on the remote (the
stat call fails), the parent resolution used by CreateEntry and Upload
returns the path unchanged, so the new entry is created under the given
path string itself (joined as path/name), not under its syntactic parent. -/
theorem spec_c2 (p name : Str) (createRes : Except String Unit)
    (hp : p ≠ []) (hn : name ≠ []) :
    resolveParent none p = p
    ∧ (ajax_new_item true p name "file" none createRes).2
        = [.statP p, .openWrite (sanitize_path (os_path_join p name))] := by
  refine ⟨rfl, ?_⟩
  cases createRes <;> simp [ajax_new_item, hp, hn, resolveParent]

theorem spec_c2_witness :
    resolveParent none ['/', 'a', '/', 'b'] = ['/', 'a', '/', 'b']
    ∧ (ajax_new_item true ['/', 'a', '/', 'b'] ['c'] "file" none (.ok ())).2
        = [.statP ['/', 'a', '/', 'b'],
           .openWrite (sanitize_path (os_path_join ['/', 'a', '/', 'b'] ['c']))] :=
  spec_c2 ['/', 'a', '/', 'b'] ['c'] (.ok ()) (by decide) (by decide)

/-- Claim C3: for every stream of output and every partition of it into
chunks (including partitions splitting a color escape sequence across two
chunks), the concatenation of the incrementally converted markup chunks
equals the markup produced by converting the whole stream in one
full-buffer pass. -/
theorem spec_c3 (chunks : List (List Nat)) :
    (convertChunks ansiInit chunks).flatten = ansiConvertFull chunks.flatten := by
  rw [ansiConvertFull, convertChunks_flatten]

/-- After the remote process has exited, one loop iteration reads at most
one chunk and then breaks. -/
theorem generateRaw_exited (fuel : Nat) (c : Channel) (he : c.exited = true) :
    generateRaw (fuel + 1) c = (if c.buf.isEmpty then [] else [c.buf.take 1024]) := by
  rw [generateRaw]
  by_cases hb : c.buf.isEmpty
  · simp [hb, he]
  · simp [hb, he]

/-- Claim C4 (counterexample): the claim states that no output byte produced
before process exit is dropped; with 1025 bytes buffered on an exited
channel, the loop reads one 1024-byte chunk, sees exit_status_ready, and
breaks, dropping the last byte. -/
theorem spec_c4_counterexample :
    (generateRaw 5 ⟨List.replicate 1025 97, true⟩).flatten ≠ List.replicate 1025 97 := by
  have e1 : generateRaw 5 ⟨List.replicate 1025 97, true⟩
      = [(List.replicate 1025 97).take 1024] := by
    rw [show (5 : Nat) = 4 + 1 from rfl, generateRaw_exited]
    · rw [if_neg (by simp)]
    · rfl
  rw [e1]
  simp only [List.flatten_cons, List.flatten_nil, List.append_nil, List.take_replicate]
  intro h
  have hl := congrArg List.length h
  simp only [List.length_replicate] at hl
  omega

/-- Claim C4 (amended): once the remote process has signaled completion, the
polling loop emits at most one further chunk (at most 1024 bytes read in
that iteration) and then closes without draining the remaining buffered
bytes; buffered bytes beyond that single read are dropped, and after
closure no further chunks are produced. -/
theorem spec_c4 (fuel : Nat) (c : Channel) (he : c.exited = true) :
    generateRaw (fuel + 1) c = (if c.buf.isEmpty then [] else [c.buf.take 1024])
    ∧ (generateRaw (fuel + 1) c).length ≤ 1 := by
  refine ⟨generateRaw_exited fuel c he, ?_⟩
  rw [generateRaw_exited fuel c he]
  split <;> simp

theorem spec_c4_witness :
    generateRaw 5 ⟨[97, 98], true⟩
      = (if ([97, 98] : List Nat).isEmpty then [] else [([97, 98] : List Nat).take 1024])
    ∧ (generateRaw 5 ⟨[97, 98], true⟩).length ≤ 1 :=
  spec_c4 4 ⟨[97, 98], true⟩ rfl

/-- Claim C5 (counterexample): the claim states the local temporary file is
deleted on every exit path, including a failure while saving the uploaded
bytes to the local temporary file; on the code, f.save runs before the
try/finally, so when it fails the exception escapes the route and os.remove
is never reached. -/
theorem spec_c5_counterexample :
    (ajax_upload true ['/', 'd'] (some true) [⟨['f'], true, false, true⟩]).1
      = .raised "save failed"
    ∧ Action.removeTemp ∉ (ajax_upload true ['/', 'd'] (some true)
        [⟨['f'], true, false, true⟩]).2 := by
  decide

/-- Claim C5 (amended): the local temporary file is deleted on both exit
paths of the remote write (put success and put failure); only a failure of
the local save itself, which raises before the try/finally, skips the
cleanup.  When every saved file saves successfully, any invocation that
created a temporary file also removes it, and the route returns a normal
success or error response rather than raising. -/
theorem spec_c5 (parent : Str) (statRes : Option Bool) (files : List UpFile)
    (hp : parent ≠ []) (hsave : ∀ f ∈ files, f.truthy = true → f.saveOk = true) :
    (Action.saveTemp ∈ (ajax_upload true parent statRes files).2 →
      Action.removeTemp ∈ (ajax_upload true parent statRes files).2)
    ∧ ((ajax_upload true parent statRes files).1 = .ok "File uploaded"
        ∨ (ajax_upload true parent statRes files).1 = .error "put failed") := by
  have h := uploadLoop_clean (resolveParent statRes parent) files hsave
  simp only [ajax_upload, Bool.not_true, Bool.false_eq_true, if_false, hp, if_neg]
  constructor
  · intro hmem
    rcases List.mem_cons.mp hmem with he | hmem
    · exact absurd he (by simp)
    · exact List.mem_cons_of_mem _ (h.1 hmem)
  · exact h.2

theorem spec_c5_witness :
    (Action.saveTemp ∈ (ajax_upload true ['/', 'd'] none [⟨['f'], true, true, false⟩]).2 →
      Action.removeTemp ∈ (ajax_upload true ['/', 'd'] none [⟨['f'], true, true, false⟩]).2)
    ∧ ((ajax_upload true ['/', 'd'] none [⟨['f'], true, true, false⟩]).1 = .ok "File uploaded"
        ∨ (ajax_upload true ['/', 'd'] none [⟨['f'], true, true, false⟩]).1
            = .error "put failed") :=
  spec_c5 ['/', 'd'] none [⟨['f'], true, true, false⟩] (by decide) (by decide)

/-- Claim C6: for every directory path and every remote entry order, List
returns two disjoint sequences, directories and files, never interleaved,
each sorted case-insensitively by entry name, with every entry carrying a
forward-slash-normalized absolute path and a non-negative size.  The two
permutation conjuncts pin each group to exactly the directory and
non-directory entries of the listing. -/
theorem spec_c6 (path : Str) (attrs : List Attr) (habs : path.head? = some '/') :
    ∃ dirs files,
      ajax_list true path (.ok attrs) = (.okList dirs files, [.listdir path])
      ∧ dirs.Pairwise (fun a b => itemLe a b = true)
      ∧ files.Pairwise (fun a b => itemLe a b = true)
      ∧ dirs.Perm ((attrs.filter (fun a => a.isDir)).map (mkItem path))
      ∧ files.Perm ((attrs.filter (fun a => !a.isDir)).map (mkItem path))
      ∧ (∀ e ∈ dirs, 0 ≤ e.size ∧ '\\' ∉ e.path ∧ e.path.head? = some '/')
      ∧ (∀ e ∈ files, 0 ≤ e.size ∧ '\\' ∉ e.path ∧ e.path.head? = some '/') := by
  have hloop := listLoop_eq path attrs ([], [])
  have h1 : (listLoop path attrs ([], [])).1
      = (attrs.filter (fun a => a.isDir)).map (mkItem path) := by
    rw [hloop]
    simp
  have h2 : (listLoop path attrs ([], [])).2
      = (attrs.filter (fun a => !a.isDir)).map (mkItem path) := by
    rw [hloop]
    simp
  refine ⟨insSort itemLe (listLoop path attrs ([], [])).1,
    insSort itemLe (listLoop path attrs ([], [])).2, rfl,
    pairwise_insSort itemLe itemLe_total itemLe_trans _,
    pairwise_insSort itemLe itemLe_total itemLe_trans _, ?_, ?_, ?_, ?_⟩
  · rw [← h1]; exact perm_insSort itemLe _
  · rw [← h2]; exact perm_insSort itemLe _
  · intro e he
    have hmem : e ∈ (attrs.filter (fun a => a.isDir)).map (mkItem path) := by
      rw [← h1]
      exact (perm_insSort itemLe _).mem_iff.mp he
    obtain ⟨a, _, rfl⟩ := List.mem_map.mp hmem
    exact ⟨format_size_nonneg _, no_backslash_sanitize _, abs_join path a.filename habs⟩
  · intro e he
    have hmem : e ∈ (attrs.filter (fun a => !a.isDir)).map (mkItem path) := by
      rw [← h2]
      exact (perm_insSort itemLe _).mem_iff.mp he
    obtain ⟨a, _, rfl⟩ := List.mem_map.mp hmem
    exact ⟨format_size_nonneg _, no_backslash_sanitize _, abs_join path a.filename habs⟩

theorem spec_c6_witness :
    ∃ dirs files,
      ajax_list true ['/'] (.ok [⟨['b'], true, 5⟩, ⟨['A'], false, -3⟩])
        = (.okList dirs files, [.listdir ['/']])
      ∧ dirs.Pairwise (fun a b => itemLe a b = true)
      ∧ files.Pairwise (fun a b => itemLe a b = true)
      ∧ dirs.Perm (([⟨['b'], true, 5⟩, ⟨['A'], false, -3⟩].filter
          (fun a : Attr => a.isDir)).map (mkItem ['/']))
      ∧ files.Perm (([⟨['b'], true, 5⟩, ⟨['A'], false, -3⟩].filter
          (fun a : Attr => !a.isDir)).map (mkItem ['/']))
      ∧ (∀ e ∈ dirs, 0 ≤ e.size ∧ '\\' ∉ e.path ∧ e.path.head? = some '/')
      ∧ (∀ e ∈ files, 0 ≤ e.size ∧ '\\' ∉ e.path ∧ e.path.head? = some '/') :=
  spec_c6 ['/'] [⟨['b'], true, 5⟩, ⟨['A'], false, -3⟩] (by decide)

/-- Claim C7: writing text content to a path and then reading the same path
back returns the content unchanged (the stored bytes are the UTF-8 encoding
and the read decodes them with replacement, which recovers the text), for
every path and every text of Unicode code points, assuming both operations
succeed. -/
theorem spec_c7 (fs : FS) (path : Str) (content : List Nat)
    (hp : path ≠ []) (hv : ∀ n ∈ content, n < 0x110000) :
    (ajax_save true fs path content).1 = .ok "File saved"
    ∧ ajax_file true (ajax_save true fs path content).2.1 path
        = (.okContent content, [.openRead path]) := by
  constructor
  · simp [ajax_save, hp]
  · have hfs : (ajax_save true fs path content).2.1 = (path, utf8Encode content) :: fs := by
      simp [ajax_save, hp]
    rw [hfs]
    simp only [ajax_file, Bool.not_true, Bool.false_eq_true, if_false]
    rw [if_neg hp]
    simp only [List.lookup, beq_self_eq_true]
    rw [utf8_round_trip content hv]

theorem spec_c7_witness :
    (ajax_save true [] ['/', 't'] [104, 945]).1 = .ok "File saved"
    ∧ ajax_file true (ajax_save true [] ['/', 't'] [104, 945]).2.1 ['/', 't']
        = (.okContent [104, 945], [.openRead ['/', 't']]) :=
  spec_c7 [] ['/', 't'] [104, 945] (by decide) (by decide)

/-- Claim C8: for a directory path, Delete removes all descendants
depth-first: running the emitted delete calls against a store holding the
subtree plus unrelated paths succeeds and leaves exactly the unrelated
paths (zero entries remain under the deleted path), the call targets are
exactly the subtree paths, no call ever targets an ancestor of a later
call's target (children before their containing directory), and for a path
naming a file only that file is removed. -/
theorem spec_c8 (t : Node) (p : Str) (outside : List Str)
    (hwf : WFNode t) (hp : GoodPath p) (hout : ∀ q ∈ outside, ¬ StrictDesc q p) :
    (∃ s, runOps (delOpsNode t p) (allPathsNode t p ++ outside) = some s ∧ s.Perm outside)
    ∧ ((delOpsNode t p).map DelOp.path).Perm (allPathsNode t p)
    ∧ (delOpsNode t p).Pairwise (fun o1 o2 => ¬ StrictDesc o2.path o1.path)
    ∧ delOpsNode .file p = [.removeOp p]
    ∧ ajax_delete true p (some t)
        = (.ok "Deleted", .statP p :: (delOpsNode t p).map DelOp.toAction) := by
  refine ⟨runDelNode t p outside hwf hp hout, perm_delOpsNode t p,
    pairwise_delOpsNode t p hwf hp, rfl, ?_⟩
  simp [ajax_delete, hp.1]

theorem spec_c8_witness :
    (∃ s, runOps (delOpsNode (.dir (.cons ['b'] (.dir (.cons ['c'] .file .nil))
          (.cons ['a'] .file .nil))) ['/', 'x'])
        (allPathsNode (.dir (.cons ['b'] (.dir (.cons ['c'] .file .nil))
          (.cons ['a'] .file .nil))) ['/', 'x'] ++ [['/', 'y']]) = some s
        ∧ s.Perm [['/', 'y']])
    ∧ ((delOpsNode (.dir (.cons ['b'] (.dir (.cons ['c'] .file .nil))
          (.cons ['a'] .file .nil))) ['/', 'x']).map DelOp.path).Perm
        (allPathsNode (.dir (.cons ['b'] (.dir (.cons ['c'] .file .nil))
          (.cons ['a'] .file .nil))) ['/', 'x'])
    ∧ (delOpsNode (.dir (.cons ['b'] (.dir (.cons ['c'] .file .nil))
          (.cons ['a'] .file .nil))) ['/', 'x']).Pairwise
        (fun o1 o2 => ¬ StrictDesc o2.path o1.path)
    ∧ delOpsNode .file ['/', 'x'] = [.removeOp ['/', 'x']]
    ∧ ajax_delete true ['/', 'x'] (some (.dir (.cons ['b'] (.dir (.cons ['c'] .file .nil))
          (.cons ['a'] .file .nil))))
        = (.ok "Deleted", .statP ['/', 'x'] :: (delOpsNode (.dir (.cons ['b']
          (.dir (.cons ['c'] .file .nil)) (.cons ['a'] .file .nil))) ['/', 'x']).map
            DelOp.toAction) :=
  spec_c8 (.dir (.cons ['b'] (.dir (.cons ['c'] .file .nil)) (.cons ['a'] .file .nil)))
    ['/', 'x'] [['/', 'y']]
    (by simp [WFNode, WFEntries, GoodName, entNames])
    (by simp only [GoodPath]; refine ⟨by decide, by decide, by decide⟩)
    (by decide)

/-- Claim C9: for every command whose remote execution completes, the
bounded executor returns a success result whose output is the concatenation
of standard output followed by standard error, decoded as UTF-8 and
converted to markup; the remote exit status does not affect the response at
all, in particular not the success/error discriminator. -/
theorem spec_c9 :
    (∀ (cmd : String) (out err : List Nat) (x : Nat) (o e : List Nat),
      cmd ≠ "" → utf8DecodeStrict out = some o → utf8DecodeStrict err = some e →
      terminal_execute true cmd (.ok ⟨out, err, x⟩)
        = (.okOutput (ansiConvertFull (o ++ e)), [.execCommand cmd]))
    ∧ (∀ (cmd : String) (out err : List Nat) (x1 x2 : Nat),
      terminal_execute true cmd (.ok ⟨out, err, x1⟩)
        = terminal_execute true cmd (.ok ⟨out, err, x2⟩)) := by
  constructor
  · intro cmd out err x o e hc h1 h2
    simp [terminal_execute, hc, h1, h2]
  · intro cmd out err x1 x2
    rfl

theorem spec_c9_witness :
    terminal_execute true "ls" (.ok ⟨[104], [33], 7⟩)
      = (.okOutput (ansiConvertFull ([104] ++ [33])), [.execCommand "ls"])
    ∧ terminal_execute true "ls" (.ok ⟨[104], [33], 7⟩)
        = terminal_execute true "ls" (.ok ⟨[104], [33], 9⟩) :=
  ⟨spec_c9.1 "ls" [104] [33] 7 [104] [33] (by decide)
      (by norm_num [utf8DecodeStrict, utf8Valid, utf8DecodeReplace, decodeStep])
      (by norm_num [utf8DecodeStrict, utf8Valid, utf8DecodeReplace, decodeStep]),
    spec_c9.2 "ls" [104] [33] 7 9⟩

/-- Claim C10: an upload request naming an existing parent directory but
containing zero file parts returns status ok with the message File uploaded
while performing no remote write; at most one file part is transferred per
call even when several are supplied (the loop breaks after the first
truthy part), and the rest are silently ignored. -/
theorem spec_c10 (parent : Str) (statRes : Option Bool) (files : List UpFile)
    (hp : parent ≠ []) :
    ((∀ f ∈ files, f.truthy = false) →
      ajax_upload true parent statRes files = (.ok "File uploaded", [.statP parent]))
    ∧ (ajax_upload true parent statRes files).2.countP Action.isPut ≤ 1 := by
  constructor
  · intro hall
    simp only [ajax_upload, Bool.not_true, Bool.false_eq_true, if_false]
    rw [if_neg hp, uploadLoop_no_truthy _ files hall]
  · simp only [ajax_upload, Bool.not_true, Bool.false_eq_true, if_false]
    rw [if_neg hp]
    simp only [List.countP_cons, Action.isPut]
    simpa using uploadLoop_puts (resolveParent statRes parent) files

theorem spec_c10_witness :
    (ajax_upload true ['/', 'd'] (some true) [] = (.ok "File uploaded", [.statP ['/', 'd']]))
    ∧ (ajax_upload true ['/', 'd'] (some true) []).2.countP Action.isPut ≤ 1 :=
  ⟨(spec_c10 ['/', 'd'] (some true) [] (by decide)).1 (by simp),
    (spec_c10 ['/', 'd'] (some true) [] (by decide)).2⟩

end VpsManager
